import Mathlib

/-!
Shallow embedding of the LibRecommender top-K ranking and evaluation core:
the ranking metrics of distributed/new_features/evaluate/metrics.py, the
top-N recommendation pipeline shared by WideDeep.recommend_user and
YouTubeMatch.recommend_user, and the unknown-id and sampling guards of
libreco/algorithms/base.py.  Externally produced scores are modelled as
rationals; NDCG lives over the reals via Real.logb.
-/

namespace LibRec

/-- Arithmetic mean of a list of rationals, modelling np.mean.  The empty mean
is 0 here (numpy would produce NaN; theorems about means therefore carry
nonemptiness hypotheses where the value matters). -/
def qmean (l : List ℚ) : ℚ := l.sum / l.length

/-- Arithmetic mean of a list of reals, modelling np.mean for the real-valued
NDCG aggregate. -/
noncomputable def rmean (l : List ℝ) : ℝ := l.sum / l.length

/-- Binary relevance indicator over the k recommendation positions: the
rank_list built by the assignment rank_list[indices_in_reco] = 1 in
metrics.py.  Under the assume_unique contract of np.intersect1d the flagged
positions are exactly the positions whose recommended item belongs to the
ground truth. -/
def hit_indicator (yTrue yReco : List ℕ) (k : ℕ) : List ℚ :=
  (List.range k).map fun i =>
    match yReco.get? i with
    | some it => if it ∈ yTrue then 1 else 0
    | none => 0

/-- Size of np.intersect1d(y_true, y_reco) under its assume_unique contract:
the number of ground-truth items that occur in the recommendation list. -/
def common_count (yTrue yReco : List ℕ) : ℕ :=
  (yTrue.filter fun t => decide (t ∈ yReco)).length

/-- Per-user precision at k, the loop body of precision_at_k in metrics.py:
the mean of the indicator vector when the intersection is nonempty, else 0. -/
def precision_one (yTrue yReco : List ℕ) (k : ℕ) : ℚ :=
  if 0 < common_count yTrue yReco then qmean (hit_indicator yTrue yReco k) else 0

/-- precision_at_k of metrics.py: macro average of the per-user precision over
the users list. -/
def precision_at_k (yTrueList yRecoList : ℕ → List ℕ) (users : List ℕ) (k : ℕ) : ℚ :=
  qmean (users.map fun u => precision_one (yTrueList u) (yRecoList u) k)

/-- Per-user recall, the loop body of recall_at_k in metrics.py:
len(common_items) / len(y_true) when the intersection is nonempty, else 0. -/
def recall_one (yTrue yReco : List ℕ) : ℚ :=
  if 0 < common_count yTrue yReco then (common_count yTrue yReco : ℚ) / yTrue.length else 0

/-- recall_at_k of metrics.py: macro average of the per-user recall.  The k
argument is accepted and unused exactly as in the source. -/
def recall_at_k (yTrueList yRecoList : ℕ → List ℕ) (users : List ℕ) (k : ℕ) : ℚ :=
  qmean (users.map fun u => recall_one (yTrueList u) (yRecoList u))

/-- average_precision_at_k of metrics.py: the mean over hit positions of the
precision restricted to the prefix ending at that position, 0 when the
intersection is empty. -/
def average_precision_at_k (yTrue yReco : List ℕ) (k : ℕ) : ℚ :=
  if 0 < common_count yTrue yReco then
    qmean ((((List.range k).filter fun i =>
      decide ((hit_indicator yTrue yReco k).getD i 0 = 1))).map fun i =>
        qmean ((hit_indicator yTrue yReco k).take (i + 1)))
  else 0

/-- map_at_k of metrics.py: macro average of average_precision_at_k. -/
def map_at_k (yTrueList yRecoList : ℕ → List ℕ) (users : List ℕ) (k : ℕ) : ℚ :=
  qmean (users.map fun u => average_precision_at_k (yTrueList u) (yRecoList u) k)

/-- Insert x in front of the first element whose key does not exceed the key of
x.  Together with sortDescBy this is a stable descending sort by key, the
behaviour of Python sorted(..., key=lambda x: -x[1]) and, on plain values, of
np.sort followed by reversal. -/
def insertDescBy {α : Type} (key : α → ℚ) (x : α) : List α → List α
  | [] => [x]
  | y :: ys => if key y ≤ key x then x :: y :: ys else y :: insertDescBy key x ys

/-- Stable descending insertion sort by key; see insertDescBy. -/
def sortDescBy {α : Type} (key : α → ℚ) : List α → List α
  | [] => []
  | x :: xs => insertDescBy key x (sortDescBy key xs)

/-- DCG exactly as computed in metrics.py, namely
rank_list[0] + np.sum(rank_list[1:] / np.log2(np.arange(2, k+1))): the entry of
rank_list[1:] at offset i is discounted by log2(i+2), so the position p = i+1
of the indicator is discounted by log2(p+1). -/
noncomputable def dcg_of (rl : List ℚ) (k : ℕ) : ℝ :=
  (rl.getD 0 0 : ℝ) +
    ∑ i in Finset.range (k - 1), (rl.getD (i + 1) 0 : ℝ) / Real.logb 2 ((i : ℝ) + 2)

/-- Per-user NDCG at k from metrics.py: DCG of the indicator divided by the DCG
of the descending-sorted indicator np.sort(rank_list)[::-1]; 0 when ground
truth and recommendation list are disjoint. -/
noncomputable def ndcg_one (yTrue yReco : List ℕ) (k : ℕ) : ℝ :=
  if 0 < common_count yTrue yReco then
    dcg_of (hit_indicator yTrue yReco k) k /
      dcg_of (sortDescBy id (hit_indicator yTrue yReco k)) k
  else 0

/-- ndcg_at_k of metrics.py: macro average of the per-user NDCG. -/
noncomputable def ndcg_at_k (yTrueList yRecoList : ℕ → List ℕ) (users : List ℕ) (k : ℕ) : ℝ :=
  rmean (users.map fun u => ndcg_one (yTrueList u) (yRecoList u) k)

/-- Comparison definition for claim C1, written from the words of the spec
rather than from the source: DCG with rel[0] undiscounted and rel[i] divided by
log2(i+2) for i = 1..k-1, so the entry of rel at position i+1 is divided by
log2(i+3). -/
noncomputable def dcg_specFormula (rl : List ℚ) (k : ℕ) : ℝ :=
  (rl.getD 0 0 : ℝ) +
    ∑ i in Finset.range (k - 1), (rl.getD (i + 1) 0 : ℝ) / Real.logb 2 ((i : ℝ) + 3)

/-- Per-user NDCG following the wording of the spec (claim C1): the
spec-formula DCG over the indicator divided by the same formula over the
descending-sorted indicator. -/
noncomputable def ndcg_one_specFormula (yTrue yReco : List ℕ) (k : ℕ) : ℝ :=
  if 0 < common_count yTrue yReco then
    dcg_specFormula (hit_indicator yTrue yReco k) k /
      dcg_specFormula (sortDescBy id (hit_indicator yTrue yReco k)) k
  else 0

/-- Macro average of the spec-worded per-user NDCG (claim C1 comparison). -/
noncomputable def ndcg_at_k_specFormula (yTrueList yRecoList : ℕ → List ℕ)
    (users : List ℕ) (k : ℕ) : ℝ :=
  rmean (users.map fun u => ndcg_one_specFormula (yTrueList u) (yRecoList u) k)

/-- Base._check_unknown_user: the id unchanged when it lies inside the
vocabulary range [0, n_users), otherwise a diagnostic is printed and None is
returned. -/
def check_unknown_user (nUsers : ℕ) (user : ℤ) : Option ℤ :=
  if 0 ≤ user ∧ user < (nUsers : ℤ) then some user else none

/-- Outcome of a single-user recommendation call: the Python None return, a
ValueError escaping from np.argpartition, or a ranked list of (item, score)
pairs. -/
inductive RecoResult where
  | noResult : RecoResult
  | raised : RecoResult
  | ok : List (ℕ × ℚ) → RecoResult
deriving DecidableEq

/-- The deterministic tail of recommend_user once np.argpartition has produced
the id slice ids: zip the ids with their scores, stable-sort by descending
score (sorted with key -x[1]), drop consumed ids, keep the first nRec. -/
def rank_output (scores : List ℚ) (ids consumed : List ℕ) (nRec : ℕ) : List (ℕ × ℚ) :=
  ((sortDescBy Prod.snd (ids.map fun i => (i, scores.getD i 0))).filter fun r =>
    decide (r.1 ∉ consumed)).take nRec

/-- WideDeep.recommend_user and YouTubeMatch.recommend_user (their selection
code is identical).  The Python guard `if not user:` returns None both for the
out-of-range signal None and for the valid id 0, since 0 is falsy.
np.argpartition(recos, -count) raises ValueError when count exceeds the
catalog size; otherwise its tail slice, whose internal order numpy leaves
unspecified, is the ids argument (constrained by validTopSlice in theorems).
scores is the externally produced score vector of the checked user. -/
def recommend_user (nUsers : ℕ) (consumedOf : ℕ → List ℕ) (scores : List ℚ)
    (user : ℤ) (nRec : ℕ) (ids : List ℕ) : RecoResult :=
  match check_unknown_user nUsers user with
  | none => .noResult
  | some u =>
    if u = 0 then .noResult
    else
      if scores.length < nRec + (consumedOf u.toNat).length then .raised
      else .ok (rank_output scores ids (consumedOf u.toNat) nRec)

/-- Documented contract of ids = np.argpartition(scores, -count)[-count:]:
count distinct valid indices whose scores dominate the score of every index
outside the slice.  The order inside the slice is left unspecified by numpy,
so any list satisfying this predicate is an admissible slice. -/
def validTopSlice (scores : List ℚ) (count : ℕ) (ids : List ℕ) : Prop :=
  ids.length = count ∧ ids.Nodup ∧ (∀ i ∈ ids, i < scores.length) ∧
    ∀ i ∈ ids, ∀ j < scores.length, j ∉ ids → scores.getD j 0 ≤ scores.getD i 0

instance (scores : List ℚ) (count : ℕ) (ids : List ℕ) :
    Decidable (validTopSlice scores count ids) := by
  unfold validTopSlice; infer_instance

/-- Base._check_unknown.  np.where marks the positions at which the user id or
the item id leaves its vocabulary range; both arrays are then overwritten with
the placeholder 0 at every flagged position.  The numpy fancy assignment
user[unknown_index] = 0 mutates the array object in place, so the returned
arrays are also the post-call contents of the arrays passed in.  The Python
set union fixes only which positions are flagged, not their order; they are
listed here in ascending order.  Returns (unknown_num, unknown_index,
sanitized user array, sanitized item array). -/
def check_unknown (nUsers nItems : ℕ) (user item : List ℤ) :
    ℕ × List ℕ × List ℤ × List ℤ :=
  let flagged := fun i =>
    decide ((nUsers : ℤ) ≤ user.getD i 0) || decide (user.getD i 0 < 0) ||
      decide ((nItems : ℤ) ≤ item.getD i 0) || decide (item.getD i 0 < 0)
  let idx := (List.range (max user.length item.length)).filter flagged
  let overwrite := fun (l : List ℤ) =>
    (List.range l.length).map fun i => if i ∈ idx then 0 else l.getD i 0
  (idx.length, idx, overwrite user, overwrite item)

/-- Contents of the caller's two arrays after Base._check_unknown returns: the
in-place assignments user[unknown_index] = 0 and item[unknown_index] = 0 act on
the caller's array objects, so the post-call contents are the sanitized
arrays. -/
def check_unknown_poststate (nUsers nItems : ℕ) (user item : List ℤ) :
    List ℤ × List ℤ :=
  ((check_unknown nUsers nItems user item).2.2.1,
    (check_unknown nUsers nItems user item).2.2.2)

/-- WideDeep.predict on a batch: sanitize the pair of id arrays, score the
sanitized batch through the external session (rawPreds, one value per input
pair by the pairwise scoring interface, already clipped or sigmoided), then
overwrite every flagged position with the configured default prediction. -/
def predict (nUsers nItems : ℕ) (defaultPrediction : ℚ) (rawPreds : List ℚ)
    (user item : List ℤ) : List ℚ :=
  (List.range rawPreds.length).map fun i =>
    if i ∈ (check_unknown nUsers nItems user item).2.1 then defaultPrediction
    else rawPreds.getD i 0

/-- Outcome of the pre-evaluation sampling guard: NotSamplingError raised, or
control flows on. -/
inductive FitCheck where
  | notSamplingError : FitCheck
  | proceeded : FitCheck
deriving DecidableEq

/-- Base._check_has_sampled: raises NotSamplingError when whole-data sampling
has not been done and per-epoch evaluation is requested (verbose > 1). -/
def check_has_sampled (hasSampled : Bool) (verbose : ℕ) : FitCheck :=
  if hasSampled = false ∧ 1 < verbose then .notSamplingError else .proceeded

/-- The guard placement in WideDeep.fit: _check_has_sampled runs on the
ranking with batch_sampling path, before any epoch is trained; every other
path proceeds without the check. -/
def fit_sampling_check (task : String) (batchSampling hasSampled : Bool)
    (verbose : ℕ) : FitCheck :=
  if task = "ranking" ∧ batchSampling = true then check_has_sampled hasSampled verbose
  else .proceeded

theorem mem_insertDescBy {α : Type} (key : α → ℚ) (x a : α) (l : List α) :
    a ∈ insertDescBy key x l ↔ a = x ∨ a ∈ l := by
  induction l with
  | nil => simp [insertDescBy]
  | cons y ys ih =>
    by_cases h : key y ≤ key x
    · simp [insertDescBy, h]
    · simp only [insertDescBy, if_neg h, List.mem_cons, ih]
      tauto

theorem pairwise_insertDescBy {α : Type} (key : α → ℚ) (x : α) {l : List α}
    (hl : l.Pairwise fun a b => key b ≤ key a) :
    (insertDescBy key x l).Pairwise fun a b => key b ≤ key a := by
  induction l with
  | nil => simp [insertDescBy]
  | cons y ys ih =>
    rcases List.pairwise_cons.1 hl with ⟨hy, hys⟩
    by_cases h : key y ≤ key x
    · rw [insertDescBy, if_pos h]
      refine List.pairwise_cons.2 ⟨?_, hl⟩
      intro z hz
      rcases List.mem_cons.1 hz with rfl | hz'
      · exact h
      · exact le_trans (hy z hz') h
    · rw [insertDescBy, if_neg h]
      refine List.pairwise_cons.2 ⟨?_, ih hys⟩
      intro z hz
      rcases (mem_insertDescBy key x z ys).1 hz with rfl | hz'
      · exact le_of_lt (lt_of_not_le h)
      · exact hy z hz'

theorem sortDescBy_pairwise {α : Type} (key : α → ℚ) (l : List α) :
    (sortDescBy key l).Pairwise fun a b => key b ≤ key a := by
  induction l with
  | nil => simp [sortDescBy]
  | cons x xs ih => exact pairwise_insertDescBy key x ih

theorem mem_sortDescBy {α : Type} (key : α → ℚ) (a : α) (l : List α) :
    a ∈ sortDescBy key l ↔ a ∈ l := by
  induction l with
  | nil => simp [sortDescBy]
  | cons x xs ih => rw [sortDescBy, mem_insertDescBy, ih, List.mem_cons]

theorem pairwise_tie_insertDescBy (x : ℕ × ℚ) {l : List (ℕ × ℚ)}
    (htie : l.Pairwise fun a b => a.2 = b.2 → a.1 < b.1)
    (hx : ∀ y ∈ l, x.1 < y.1) :
    (insertDescBy Prod.snd x l).Pairwise fun a b => a.2 = b.2 → a.1 < b.1 := by
  induction l with
  | nil => simp [insertDescBy]
  | cons y ys ih =>
    rcases List.pairwise_cons.1 htie with ⟨hy, hys⟩
    by_cases h : y.2 ≤ x.2
    · rw [insertDescBy, if_pos h]
      refine List.pairwise_cons.2 ⟨?_, htie⟩
      intro z hz _
      exact hx z hz
    · rw [insertDescBy, if_neg h]
      refine List.pairwise_cons.2 ⟨?_, ih hys fun z hz => hx z (List.mem_cons_of_mem y hz)⟩
      intro z hz heq
      rcases (mem_insertDescBy Prod.snd x z ys).1 hz with rfl | hz'
      · exact absurd (le_of_eq heq) h
      · exact hy z hz' heq

theorem sortDescBy_pairwise_tie {l : List (ℕ × ℚ)}
    (h : l.Pairwise fun a b => a.1 < b.1) :
    (sortDescBy Prod.snd l).Pairwise fun a b => a.2 = b.2 → a.1 < b.1 := by
  induction l with
  | nil => simp [sortDescBy]
  | cons x xs ih =>
    rcases List.pairwise_cons.1 h with ⟨hx, hxs⟩
    exact pairwise_tie_insertDescBy x (ih hxs) fun y hy =>
      hx y ((mem_sortDescBy Prod.snd y xs).1 hy)

theorem rank_output_sublist (scores : List ℚ) (ids consumed : List ℕ) (nRec : ℕ) :
    List.Sublist (rank_output scores ids consumed nRec)
      (sortDescBy Prod.snd (ids.map fun i => (i, scores.getD i 0))) := by
  unfold rank_output
  exact List.Sublist.trans (List.take_sublist _ _) (List.filter_sublist _)

theorem qmean_nonneg {l : List ℚ} (h : ∀ x ∈ l, 0 ≤ x) : 0 ≤ qmean l :=
  div_nonneg (List.sum_nonneg h) (Nat.cast_nonneg _)

theorem qmean_le_one {l : List ℚ} (h : ∀ x ∈ l, x ≤ 1) : qmean l ≤ 1 := by
  refine div_le_one_of_le₀ ?_ (Nat.cast_nonneg _)
  simpa using List.sum_le_card_nsmul l 1 h

theorem rmean_nonneg {l : List ℝ} (h : ∀ x ∈ l, 0 ≤ x) : 0 ≤ rmean l :=
  div_nonneg (List.sum_nonneg h) (Nat.cast_nonneg _)

theorem rmean_le_one {l : List ℝ} (h : ∀ x ∈ l, x ≤ 1) : rmean l ≤ 1 := by
  refine div_le_one_of_le₀ ?_ (Nat.cast_nonneg _)
  simpa using List.sum_le_card_nsmul l 1 h

/-- C2: the claim asserts that when n_rec + |consumed| > n_items the selection
count is clamped to n_items and a correct list is still returned.  On the code,
np.argpartition(recos, -count) raises instead: with a catalog of 2 items, a
consumed list of length 2 and n_rec = 1, recommend_user raises rather than
returning a list. -/
theorem C2_counterexample :
    recommend_user 2 (fun _ => [0, 1]) [2, 1] 1 1 [] = RecoResult.raised := by
  decide

/-- C2 amended: there is no clamping, and whenever n_rec + |consumed| exceeds
the catalog size (and the user passes the validity guard), recommend_user
raises the argpartition kth-out-of-bounds error instead of returning a
recommendation list. -/
theorem C2_amended (nUsers : ℕ) (consumedOf : ℕ → List ℕ) (scores : List ℚ)
    (user : ℤ) (nRec : ℕ) (ids : List ℕ) (h0 : 0 < user) (h1 : user < (nUsers : ℤ))
    (h2 : scores.length < nRec + (consumedOf user.toNat).length) :
    recommend_user nUsers consumedOf scores user nRec ids = RecoResult.raised := by
  have hcu : check_unknown_user nUsers user = some user := by
    rw [check_unknown_user, if_pos ⟨h0.le, h1⟩]
  simp [recommend_user, hcu, h2, show user ≠ 0 by omega]

/-- C2 amended, witnessed at a concrete instance: catalog of 3 items, consumed
list of length 3, n_rec = 1, valid user 1. -/
theorem C2_amended_witness :
    recommend_user 2 (fun _ => [0, 1, 1]) [3, 2, 1] 1 1 [0] = RecoResult.raised :=
  C2_amended 2 (fun _ => [0, 1, 1]) [3, 2, 1] 1 1 [0] (by decide) (by decide)
    (by decide)

/-- C3: the claim asserts a deterministic ascending-item-id tie-break.  The
slice [1, 0] is an admissible result of np.argpartition on the score vector
[2, 2] (numpy leaves the in-slice order unspecified), and on it
recommend_user returns the tied items as [(1, 2), (0, 2)], the higher item
id first, falsifying the claimed tie-break. -/
theorem C3_counterexample :
    validTopSlice [2, 2] 2 [1, 0] ∧
    recommend_user 2 (fun _ => []) [2, 2] 1 2 [1, 0] =
      RecoResult.ok [(1, 2), (0, 2)] ∧
    ¬ List.Pairwise (fun a b : ℕ × ℚ => a.2 = b.2 → a.1 < b.1)
      [((1 : ℕ), (2 : ℚ)), (0, 2)] := by
  refine ⟨by decide, by decide, by decide⟩

/-- C3 amended: the sort is stable, so exact ties keep the order in which the
argpartition slice lists the ids; the ascending-item-id tie-break therefore
holds exactly when the slice lists the ids in ascending order. -/
theorem C3_amended (scores : List ℚ) (ids consumed : List ℕ) (nRec : ℕ)
    (h : ids.Pairwise fun a b => a < b) :
    (rank_output scores ids consumed nRec).Pairwise fun a b => a.2 = b.2 → a.1 < b.1 := by
  have hmap : (ids.map fun i => (i, scores.getD i 0)).Pairwise
      fun a b : ℕ × ℚ => a.1 < b.1 := List.pairwise_map.2 (by simpa using h)
  exact (sortDescBy_pairwise_tie hmap).sublist (rank_output_sublist scores ids consumed nRec)

/-- C3 amended, witnessed on an ascending slice over tied scores. -/
theorem C3_amended_witness :
    (rank_output [2, 2] [0, 1] [] 2).Pairwise fun a b => a.2 = b.2 → a.1 < b.1 :=
  C3_amended [2, 2] [0, 1] [] 2 (by decide)

/-- C4: the code slip.  User id 0 is inside [0, n_users), _check_unknown_user
accepts it unchanged, yet recommend_user produces no result for it because the
Python guard `if not user:` treats the integer 0 as falsy; a positive in-range
user on the same model does get a list.  So the no-result fallback does not
trigger exactly for out-of-range users, contradicting the spec's intent. -/
theorem C4_theorem :
    check_unknown_user 1 0 = some 0 ∧
    recommend_user 1 (fun _ => []) [2] 0 1 [0] = RecoResult.noResult ∧
    recommend_user 2 (fun _ => []) [2, 1] 1 1 [0] = RecoResult.ok [(0, 2)] := by
  refine ⟨by decide, by decide, by decide⟩

/-- C5: output contract of the top-N selection.  For a valid positive user id
and n_rec + |consumed| within the catalog, recommend_user returns exactly the
rank_output list, and that list contains no consumed item, has at most n_rec
entries, and is ordered by non-increasing score — for every id slice the
partition step may produce. -/
theorem C5_theorem (nUsers : ℕ) (consumedOf : ℕ → List ℕ) (scores : List ℚ)
    (user : ℤ) (nRec : ℕ) (ids : List ℕ) (h0 : 0 < user) (h1 : user < (nUsers : ℤ))
    (h2 : nRec + (consumedOf user.toNat).length ≤ scores.length) :
    recommend_user nUsers consumedOf scores user nRec ids =
      RecoResult.ok (rank_output scores ids (consumedOf user.toNat) nRec) ∧
    (rank_output scores ids (consumedOf user.toNat) nRec).all
      (fun p => decide (p.1 ∉ consumedOf user.toNat)) = true ∧
    (rank_output scores ids (consumedOf user.toNat) nRec).length ≤ nRec ∧
    (rank_output scores ids (consumedOf user.toNat) nRec).Pairwise
      (fun a b => b.2 ≤ a.2) := by
  refine ⟨?_, ?_, ?_, ?_⟩
  · have hcu : check_unknown_user nUsers user = some user := by
      rw [check_unknown_user, if_pos ⟨h0.le, h1⟩]
    simp [recommend_user, hcu, show user ≠ 0 by omega, show
      ¬ scores.length < nRec + (consumedOf user.toNat).length by omega]
  · refine List.all_eq_true.2 fun p hp => ?_
    exact (List.mem_filter.1 (List.mem_of_mem_take hp)).2
  · exact List.length_take_le _ _
  · exact (sortDescBy_pairwise Prod.snd _).sublist (rank_output_sublist _ _ _ _)

/-- C5 witness at a concrete instance with a consumed item actually filtered
out of the slice. -/
theorem C5_witness :
    recommend_user 2 (fun _ => [1]) [2, 1] 1 1 [0, 1] =
      RecoResult.ok (rank_output [2, 1] [0, 1] [1] 1) ∧
    (rank_output [2, 1] [0, 1] [1] 1).all
      (fun p => decide (p.1 ∉ [1])) = true ∧
    (rank_output [2, 1] [0, 1] [1] 1).length ≤ 1 ∧
    (rank_output [2, 1] [0, 1] [1] 1).Pairwise (fun a b => b.2 ≤ a.2) :=
  C5_theorem 2 (fun _ => [1]) [2, 1] 1 1 [0, 1] (by decide) (by decide) (by decide)

theorem mem_check_unknown_index (nUsers nItems : ℕ) (user item : List ℤ) (i : ℕ)
    (hi : i < max user.length item.length) :
    (i ∈ (check_unknown nUsers nItems user item).2.1 ↔
      ((nUsers : ℤ) ≤ user.getD i 0 ∨ user.getD i 0 < 0) ∨
        ((nItems : ℤ) ≤ item.getD i 0 ∨ item.getD i 0 < 0)) := by
  unfold check_unknown
  simp only [List.mem_filter, List.mem_range, Bool.or_eq_true, decide_eq_true_eq]
  tauto

theorem getD_check_unknown_user_array (nUsers nItems : ℕ) (user item : List ℤ)
    (i : ℕ) (hi : i < user.length) :
    (check_unknown nUsers nItems user item).2.2.1.getD i 0 =
      if i ∈ (check_unknown nUsers nItems user item).2.1 then 0 else user.getD i 0 := by
  conv_lhs => rw [check_unknown]
  rw [List.getD_eq_getElem _ _ (by simpa using hi), List.getElem_map, List.getElem_range]
  rfl

theorem getD_check_unknown_item_array (nUsers nItems : ℕ) (user item : List ℤ)
    (i : ℕ) (hi : i < item.length) :
    (check_unknown nUsers nItems user item).2.2.2.getD i 0 =
      if i ∈ (check_unknown nUsers nItems user item).2.1 then 0 else item.getD i 0 := by
  conv_lhs => rw [check_unknown]
  rw [List.getD_eq_getElem _ _ (by simpa using hi), List.getElem_map, List.getElem_range]
  rfl

/-- C8: batch sanitization contract.  At every position where the user id or
the item id is out of range, _check_unknown records the position and zeroes
both sanitized arrays there, and the subsequent batch predict call (modelled as
a total function, so it cannot raise) returns one value per input pair with the
configured default prediction at the flagged position. -/
theorem C8_theorem (nUsers nItems : ℕ) (defaultPrediction : ℚ) (rawPreds : List ℚ)
    (user item : List ℤ) (i : ℕ) (hraw : rawPreds.length = user.length)
    (hi : i < user.length)
    (hflag : ((nUsers : ℤ) ≤ user.getD i 0 ∨ user.getD i 0 < 0) ∨
      ((nItems : ℤ) ≤ item.getD i 0 ∨ item.getD i 0 < 0)) :
    i ∈ (check_unknown nUsers nItems user item).2.1 ∧
    (check_unknown nUsers nItems user item).2.2.1.getD i 0 = 0 ∧
    (check_unknown nUsers nItems user item).2.2.2.getD i 0 = 0 ∧
    (predict nUsers nItems defaultPrediction rawPreds user item).length = user.length ∧
    (predict nUsers nItems defaultPrediction rawPreds user item).getD i 0 =
      defaultPrediction := by
  have hmem : i ∈ (check_unknown nUsers nItems user item).2.1 :=
    (mem_check_unknown_index nUsers nItems user item i
      (lt_of_lt_of_le hi (le_max_left _ _))).2 hflag
  refine ⟨hmem, ?_, ?_, ?_, ?_⟩
  · rw [getD_check_unknown_user_array nUsers nItems user item i hi, if_pos hmem]
  · by_cases hii : i < item.length
    · rw [getD_check_unknown_item_array nUsers nItems user item i hii, if_pos hmem]
    · rw [List.getD_eq_default]
      have : (check_unknown nUsers nItems user item).2.2.2.length = item.length := by
        rw [check_unknown]; simp
      omega
  · rw [predict]; simpa using hraw
  · rw [predict, List.getD_eq_getElem _ _ (by simpa using hraw ▸ hi),
      List.getElem_map, List.getElem_range, if_pos hmem]

/-- C8 witness: a batch of one pair whose user id 5 exceeds n_users = 1. -/
theorem C8_witness :
    0 ∈ (check_unknown 1 1 [5] [0]).2.1 ∧
    (check_unknown 1 1 [5] [0]).2.2.1.getD 0 0 = 0 ∧
    (check_unknown 1 1 [5] [0]).2.2.2.getD 0 0 = 0 ∧
    (predict 1 1 37 [9] [5] [0]).length = [(5 : ℤ)].length ∧
    (predict 1 1 37 [9] [5] [0]).getD 0 0 = 37 :=
  C8_theorem 1 1 37 [9] [5] [0] 0 (by decide) (by decide) (by decide)

/-- C9: the NotPrepared guard.  On the ranking-with-batch-sampling path of
WideDeep.fit, the pre-epoch check raises NotSamplingError exactly when
whole-data sampling has not been done and per-epoch evaluation is requested
(the code evaluates per epoch precisely when verbose > 1); otherwise training
proceeds. -/
theorem C9_theorem (hasSampled : Bool) (verbose : ℕ) :
    fit_sampling_check "ranking" true hasSampled verbose = FitCheck.notSamplingError ↔
      hasSampled = false ∧ 1 < verbose := by
  unfold fit_sampling_check check_has_sampled
  by_cases h : hasSampled = false ∧ 1 < verbose
  · simp [h]
  · simp only [if_neg h]
    simp only [and_true, if_true]
    constructor
    · intro hcontra
      exact absurd hcontra (by simp)
    · intro hcontra
      exact absurd hcontra h

/-- C10: the claim asserts check_pairs leaves the caller's arrays unchanged.
It does not: the fancy assignments mutate them in place, so after the call on
the batch user = [5], item = [0] with a vocabulary of one user and one item,
the caller's user array holds [0], not the original [5]. -/
theorem C10_counterexample :
    check_unknown_poststate 1 1 [5] [0] ≠ ([5], [0]) ∧
    check_unknown_poststate 1 1 [5] [0] = ([0], [0]) := by
  refine ⟨by decide, by decide⟩

/-- C10 amended: beyond diagnostics, the only side effect of _check_unknown is
the in-place sanitization itself — after the call the caller's arrays keep
their lengths, hold 0 at every flagged position and are unchanged at every
other position. -/
theorem C10_amended (nUsers nItems : ℕ) (user item : List ℤ) (i : ℕ)
    (hiu : i < user.length) (hii : i < item.length) :
    (check_unknown_poststate nUsers nItems user item).1.length = user.length ∧
    (check_unknown_poststate nUsers nItems user item).2.length = item.length ∧
    (check_unknown_poststate nUsers nItems user item).1.getD i 0 =
      (if ((nUsers : ℤ) ≤ user.getD i 0 ∨ user.getD i 0 < 0) ∨
          ((nItems : ℤ) ≤ item.getD i 0 ∨ item.getD i 0 < 0) then 0
        else user.getD i 0) ∧
    (check_unknown_poststate nUsers nItems user item).2.getD i 0 =
      (if ((nUsers : ℤ) ≤ user.getD i 0 ∨ user.getD i 0 < 0) ∨
          ((nItems : ℤ) ≤ item.getD i 0 ∨ item.getD i 0 < 0) then 0
        else item.getD i 0) := by
  have hmem := mem_check_unknown_index nUsers nItems user item i
    (lt_of_lt_of_le hiu (le_max_left _ _))
  refine ⟨?_, ?_, ?_, ?_⟩
  · rw [check_unknown_poststate, check_unknown]; simp
  · rw [check_unknown_poststate, check_unknown]; simp
  · rw [check_unknown_poststate]
    rw [getD_check_unknown_user_array nUsers nItems user item i hiu]
    by_cases h : i ∈ (check_unknown nUsers nItems user item).2.1
    · rw [if_pos h, if_pos (hmem.1 h)]
    · rw [if_neg h, if_neg (fun hc => h (hmem.2 hc))]
  · rw [check_unknown_poststate]
    rw [getD_check_unknown_item_array nUsers nItems user item i hii]
    by_cases h : i ∈ (check_unknown nUsers nItems user item).2.1
    · rw [if_pos h, if_pos (hmem.1 h)]
    · rw [if_neg h, if_neg (fun hc => h (hmem.2 hc))]

/-- C10 amended, witnessed on a two-pair batch with one flagged position. -/
theorem C10_amended_witness :
    (check_unknown_poststate 3 3 [0, 5] [1, 1]).1.length = [(0 : ℤ), 5].length ∧
    (check_unknown_poststate 3 3 [0, 5] [1, 1]).2.length = [(1 : ℤ), 1].length ∧
    (check_unknown_poststate 3 3 [0, 5] [1, 1]).1.getD 0 0 =
      (if ((3 : ℤ) ≤ ([(0 : ℤ), 5].getD 0 0) ∨ ([(0 : ℤ), 5].getD 0 0) < 0) ∨
          ((3 : ℤ) ≤ ([(1 : ℤ), 1].getD 0 0) ∨ ([(1 : ℤ), 1].getD 0 0) < 0) then 0
        else [(0 : ℤ), 5].getD 0 0) ∧
    (check_unknown_poststate 3 3 [0, 5] [1, 1]).2.getD 0 0 =
      (if ((3 : ℤ) ≤ ([(0 : ℤ), 5].getD 0 0) ∨ ([(0 : ℤ), 5].getD 0 0) < 0) ∨
          ((3 : ℤ) ≤ ([(1 : ℤ), 1].getD 0 0) ∨ ([(1 : ℤ), 1].getD 0 0) < 0) then 0
        else [(1 : ℤ), 1].getD 0 0) :=
  C10_amended 3 3 [0, 5] [1, 1] 0 (by decide) (by decide)

theorem common_count_eq_zero {yTrue yReco : List ℕ} (hd : ∀ t ∈ yTrue, t ∉ yReco) :
    common_count yTrue yReco = 0 := by
  rw [common_count, List.length_eq_zero, List.filter_eq_nil_iff]
  intro a ha
  simp [hd a ha]

/-- C7: a user whose ground truth is empty or disjoint from the recommendation
list scores exactly 0 on all four per-user metrics, and the macro averages
still divide by the full user count: prepending such a user to any user list
contributes nothing to the numerator while adding one to the denominator. -/
theorem C7_theorem (yTrueList yRecoList : ℕ → List ℕ) (u : ℕ) (rest : List ℕ)
    (k : ℕ) (hd : ∀ t ∈ yTrueList u, t ∉ yRecoList u) :
    precision_one (yTrueList u) (yRecoList u) k = 0 ∧
    recall_one (yTrueList u) (yRecoList u) = 0 ∧
    average_precision_at_k (yTrueList u) (yRecoList u) k = 0 ∧
    ndcg_one (yTrueList u) (yRecoList u) k = 0 ∧
    precision_at_k yTrueList yRecoList (u :: rest) k =
      (rest.map fun v => precision_one (yTrueList v) (yRecoList v) k).sum /
        ((rest.length : ℚ) + 1) ∧
    recall_at_k yTrueList yRecoList (u :: rest) k =
      (rest.map fun v => recall_one (yTrueList v) (yRecoList v)).sum /
        ((rest.length : ℚ) + 1) ∧
    map_at_k yTrueList yRecoList (u :: rest) k =
      (rest.map fun v => average_precision_at_k (yTrueList v) (yRecoList v) k).sum /
        ((rest.length : ℚ) + 1) ∧
    ndcg_at_k yTrueList yRecoList (u :: rest) k =
      (rest.map fun v => ndcg_one (yTrueList v) (yRecoList v) k).sum /
        ((rest.length : ℝ) + 1) := by
  have hc : common_count (yTrueList u) (yRecoList u) = 0 := common_count_eq_zero hd
  have h1 : precision_one (yTrueList u) (yRecoList u) k = 0 := by
    rw [precision_one, hc]; simp
  have h2 : recall_one (yTrueList u) (yRecoList u) = 0 := by
    rw [recall_one, hc]; simp
  have h3 : average_precision_at_k (yTrueList u) (yRecoList u) k = 0 := by
    rw [average_precision_at_k, hc]; simp
  have h4 : ndcg_one (yTrueList u) (yRecoList u) k = 0 := by
    rw [ndcg_one, hc]; simp
  refine ⟨h1, h2, h3, h4, ?_, ?_, ?_, ?_⟩
  · rw [precision_at_k, qmean, List.map_cons, List.sum_cons, h1, zero_add,
      List.length_cons, List.length_map]
    push_cast; ring
  · rw [recall_at_k, qmean, List.map_cons, List.sum_cons, h2, zero_add,
      List.length_cons, List.length_map]
    push_cast; ring
  · rw [map_at_k, qmean, List.map_cons, List.sum_cons, h3, zero_add,
      List.length_cons, List.length_map]
    push_cast; ring
  · rw [ndcg_at_k, rmean, List.map_cons, List.sum_cons, h4, zero_add,
      List.length_cons, List.length_map]
    push_cast; ring

/-- C7 witness: a user with empty ground truth, alone in the user list. -/
theorem C7_witness :
    precision_one ((fun _ => ([] : List ℕ)) 0) ((fun _ => [1]) 0) 1 = 0 ∧
    recall_one ((fun _ => ([] : List ℕ)) 0) ((fun _ => [1]) 0) = 0 ∧
    average_precision_at_k ((fun _ => ([] : List ℕ)) 0) ((fun _ => [1]) 0) 1 = 0 ∧
    ndcg_one ((fun _ => ([] : List ℕ)) 0) ((fun _ => [1]) 0) 1 = 0 ∧
    precision_at_k (fun _ => ([] : List ℕ)) (fun _ => [1]) [0] 1 =
      (([] : List ℕ).map fun v =>
        precision_one ((fun _ => ([] : List ℕ)) v) ((fun _ => [1]) v) 1).sum /
        ((([] : List ℕ).length : ℚ) + 1) ∧
    recall_at_k (fun _ => ([] : List ℕ)) (fun _ => [1]) [0] 1 =
      (([] : List ℕ).map fun v =>
        recall_one ((fun _ => ([] : List ℕ)) v) ((fun _ => [1]) v)).sum /
        ((([] : List ℕ).length : ℚ) + 1) ∧
    map_at_k (fun _ => ([] : List ℕ)) (fun _ => [1]) [0] 1 =
      (([] : List ℕ).map fun v =>
        average_precision_at_k ((fun _ => ([] : List ℕ)) v) ((fun _ => [1]) v) 1).sum /
        ((([] : List ℕ).length : ℚ) + 1) ∧
    ndcg_at_k (fun _ => ([] : List ℕ)) (fun _ => [1]) [0] 1 =
      (([] : List ℕ).map fun v =>
        ndcg_one ((fun _ => ([] : List ℕ)) v) ((fun _ => [1]) v) 1).sum /
        ((([] : List ℕ).length : ℝ) + 1) :=
  C7_theorem (fun _ => ([] : List ℕ)) (fun _ => [1]) 0 [] 1 (by simp)

theorem hit_indicator_mem {yTrue yReco : List ℕ} {k : ℕ} {x : ℚ}
    (hx : x ∈ hit_indicator yTrue yReco k) : x = 0 ∨ x = 1 := by
  rw [hit_indicator] at hx
  rcases List.mem_map.1 hx with ⟨i, _, rfl⟩
  rcases hg : yReco.get? i with _ | it
  · simp [hg]
  · by_cases hmem : it ∈ yTrue <;> simp [hmem]

theorem hit_indicator_length (yTrue yReco : List ℕ) (k : ℕ) :
    (hit_indicator yTrue yReco k).length = k := by
  rw [hit_indicator, List.length_map, List.length_range]

theorem getD_nonneg {rl : List ℚ} (h : ∀ x ∈ rl, 0 ≤ x) (i : ℕ) :
    0 ≤ rl.getD i 0 := by
  by_cases hi : i < rl.length
  · rw [List.getD_eq_getElem _ _ hi]
    exact h _ (List.getElem_mem _)
  · rw [List.getD_eq_default]
    omega

/-- The discount weight that metrics.py applies at each indicator position:
position 0 is undiscounted and position i is divided by log2(i+1). -/
noncomputable def logw (i : ℕ) : ℝ := if i = 0 then 1 else (Real.logb 2 ((i : ℝ) + 1))⁻¹

theorem logw_pos (i : ℕ) : 0 < logw i := by
  rw [logw]
  split
  · norm_num
  · next h =>
    refine inv_pos.2 (Real.logb_pos (by norm_num) ?_)
    have h1 : 1 ≤ i := Nat.one_le_iff_ne_zero.2 h
    have : (1 : ℝ) ≤ (i : ℝ) := by exact_mod_cast h1
    linarith

theorem logw_le_one (i : ℕ) : logw i ≤ 1 := by
  rw [logw]
  split
  · exact le_refl 1
  · next h =>
    have h1 : 1 ≤ i := Nat.one_le_iff_ne_zero.2 h
    have h1r : (1 : ℝ) ≤ (i : ℝ) := by exact_mod_cast h1
    have hb : (1 : ℝ) ≤ Real.logb 2 ((i : ℝ) + 1) := by
      have := Real.logb_le_logb_of_le (by norm_num : (1:ℝ) < 2)
        (by norm_num : (0:ℝ) < 2) (by linarith : (2:ℝ) ≤ (i : ℝ) + 1)
      rwa [Real.logb_self_eq_one (by norm_num)] at this
    exact inv_le_one_of_one_le₀ hb

theorem logw_antitone {i j : ℕ} (hij : i ≤ j) : logw j ≤ logw i := by
  rcases Nat.eq_zero_or_pos i with rfl | hi
  · exact (logw_le_one j).trans_eq (by rw [logw, if_pos rfl])
  · have hj : j ≠ 0 := by omega
    have hi' : i ≠ 0 := by omega
    rw [logw, logw, if_neg hj, if_neg hi']
    have hir : (1 : ℝ) ≤ (i : ℝ) := by exact_mod_cast hi
    have hijr : (i : ℝ) ≤ (j : ℝ) := by exact_mod_cast hij
    have hpos : 0 < Real.logb 2 ((i : ℝ) + 1) :=
      Real.logb_pos (by norm_num) (by linarith)
    have hmono : Real.logb 2 ((i : ℝ) + 1) ≤ Real.logb 2 ((j : ℝ) + 1) :=
      Real.logb_le_logb_of_le (by norm_num) (by linarith) (by linarith)
    exact inv_anti₀ hpos hmono

theorem dcg_of_eq_sum (rl : List ℚ) (k : ℕ) (hk : 1 ≤ k) :
    dcg_of rl k = ∑ i in Finset.range k, (rl.getD i 0 : ℝ) * logw i := by
  obtain ⟨n, rfl⟩ : ∃ n, k = n + 1 := ⟨k - 1, by omega⟩
  have h0 : (rl.getD 0 0 : ℝ) * logw 0 = (rl.getD 0 0 : ℝ) := by
    rw [logw, if_pos rfl, mul_one]
  rw [dcg_of, Finset.sum_range_succ' (fun i => (rl.getD i 0 : ℝ) * logw i) n, h0,
    add_comm (∑ i in Finset.range n, (rl.getD (i + 1) 0 : ℝ) * logw (i + 1))
      ((rl.getD 0 0 : ℝ))]
  simp only [Nat.add_sub_cancel]
  congr 1
  refine Finset.sum_congr rfl fun i _ => ?_
  rw [logw, if_neg (Nat.succ_ne_zero i), div_eq_mul_inv]
  congr 2
  push_cast
  ring_nf

theorem dcg_of_eq_sum_filter (rl : List ℚ) (k : ℕ) (hk : 1 ≤ k)
    (h01 : ∀ x ∈ rl, x = 0 ∨ x = 1) (hlen : rl.length = k) :
    dcg_of rl k =
      ∑ i in (Finset.range k).filter (fun i => rl.getD i 0 = 1), logw i := by
  rw [dcg_of_eq_sum rl k hk, Finset.sum_filter]
  refine Finset.sum_congr rfl fun i hi => ?_
  by_cases h : rl.getD i 0 = 1
  · rw [if_pos h, h]
    norm_num
  · have hi' : i < rl.length := by rw [hlen]; exact Finset.mem_range.1 hi
    have h0 : rl.getD i 0 = 0 := by
      rw [List.getD_eq_getElem _ _ hi'] at h ⊢
      rcases h01 _ (List.getElem_mem hi') with h' | h'
      · exact h'
      · exact absurd h' h
    rw [if_neg h, h0]
    norm_num

theorem card_ones_filter (rl : List ℚ) :
    ((Finset.range rl.length).filter fun i => rl.getD i 0 = 1).card = rl.count 1 := by
  induction rl with
  | nil => simp
  | cons x xs ih =>
    rw [List.length_cons, Finset.card_filter, Finset.sum_range_succ']
    simp only [List.getD_cons_succ, List.getD_cons_zero]
    rw [← Finset.card_filter, ih, List.count_cons]
    simp only [beq_iff_eq]

theorem insertDescBy_one_zero_one {l : List ℚ} (h01 : ∀ x ∈ l, x = 0 ∨ x = 1) :
    insertDescBy id 1 l = 1 :: l := by
  cases l with
  | nil => rfl
  | cons y ys =>
    rw [insertDescBy, if_pos]
    rcases h01 y (List.mem_cons_self _ _) with rfl | rfl <;> norm_num

theorem insertDescBy_zero_repl (a b : ℕ) :
    insertDescBy id 0 (List.replicate a (1 : ℚ) ++ List.replicate b 0) =
      List.replicate a (1 : ℚ) ++ List.replicate (b + 1) 0 := by
  induction a with
  | zero =>
    simp only [List.replicate_zero, List.nil_append]
    cases b with
    | zero => rfl
    | succ m =>
      rw [List.replicate_succ, insertDescBy, if_pos (by norm_num)]
      rfl
  | succ a ih =>
    rw [List.replicate_succ, List.cons_append, insertDescBy,
      if_neg (by norm_num), ih, List.cons_append]

theorem sortDescBy_zero_one {l : List ℚ} (h01 : ∀ x ∈ l, x = 0 ∨ x = 1) :
    sortDescBy id l =
      List.replicate (l.count 1) (1 : ℚ) ++ List.replicate (l.length - l.count 1) 0 := by
  induction l with
  | nil => simp [sortDescBy]
  | cons x xs ih =>
    have hxs : ∀ y ∈ xs, y = 0 ∨ y = 1 := fun y hy => h01 y (List.mem_cons_of_mem _ hy)
    have hcle : xs.count 1 ≤ xs.length := List.count_le_length _ _
    rw [sortDescBy, ih hxs]
    rcases h01 x (List.mem_cons_self _ _) with rfl | rfl
    · rw [insertDescBy_zero_repl]
      have hcount : ((0 : ℚ) :: xs).count 1 = xs.count 1 := by
        simp [List.count_cons]
      rw [hcount, List.length_cons]
      congr 1
      congr 1
      omega
    · have hall : ∀ y ∈ List.replicate (xs.count 1) (1 : ℚ) ++
          List.replicate (xs.length - xs.count 1) 0, y = 0 ∨ y = 1 := by
        intro y hy
        rcases List.mem_append.1 hy with hy' | hy'
        · right; exact List.eq_of_mem_replicate hy'
        · left; exact List.eq_of_mem_replicate hy'
      rw [insertDescBy_one_zero_one hall]
      have hcount : ((1 : ℚ) :: xs).count 1 = xs.count 1 + 1 := by
        simp [List.count_cons]
      have harith : xs.length + 1 - (xs.count 1 + 1) = xs.length - xs.count 1 := by
        omega
      rw [hcount, List.length_cons, List.replicate_succ, List.cons_append, harith]

theorem getD_repl_one_zero (c m i : ℕ) :
    (List.replicate c (1 : ℚ) ++ List.replicate m 0).getD i 0 =
      if i < c then 1 else 0 := by
  by_cases h : i < c
  · rw [if_pos h,
      List.getD_eq_getElem _ _ (by simp; omega),
      List.getElem_append_left (by simpa using h), List.getElem_replicate]
  · rw [if_neg h]
    by_cases h2 : i < c + m
    · rw [List.getD_eq_getElem _ _ (by simp; omega),
        List.getElem_append_right (by simpa using h), List.getElem_replicate]
    · rw [List.getD_eq_default]
      simp
      omega

theorem idcg_eq (rl : List ℚ) (k : ℕ) (hk : 1 ≤ k)
    (h01 : ∀ x ∈ rl, x = 0 ∨ x = 1) (hlen : rl.length = k) :
    dcg_of (sortDescBy id rl) k = ∑ i in Finset.range (rl.count 1), logw i := by
  have hc : rl.count 1 ≤ k := hlen ▸ List.count_le_length _ _
  rw [sortDescBy_zero_one h01, dcg_of_eq_sum _ k hk]
  have hstep : ∀ i ∈ Finset.range k,
      ((List.replicate (rl.count 1) (1 : ℚ) ++
        List.replicate (rl.length - rl.count 1) 0).getD i 0 : ℝ) * logw i =
        if i < rl.count 1 then logw i else 0 := by
    intro i _
    rw [getD_repl_one_zero]
    by_cases h : i < rl.count 1
    · rw [if_pos h, if_pos h]
      norm_num
    · rw [if_neg h, if_neg h]
      norm_num
  rw [Finset.sum_congr rfl hstep, ← Finset.sum_filter]
  congr 1
  ext i
  simp only [Finset.mem_filter, Finset.mem_range]
  omega

theorem sum_antitone_card (w : ℕ → ℝ) (hw : ∀ i j, i ≤ j → w j ≤ w i) :
    ∀ (n : ℕ) (S : Finset ℕ), S.card = n → ∑ i in S, w i ≤ ∑ i in Finset.range n, w i := by
  intro n
  induction n with
  | zero =>
    intro S hS
    rw [Finset.card_eq_zero.1 hS]
    simp
  | succ n ih =>
    intro S hS
    have hne : S.Nonempty := Finset.card_pos.1 (by omega)
    have hmem : S.max' hne ∈ S := S.max'_mem hne
    have hcard : (S.erase (S.max' hne)).card = n := by
      rw [Finset.card_erase_of_mem hmem, hS]
      omega
    have hsub : S ⊆ Finset.range (S.max' hne + 1) := fun a ha =>
      Finset.mem_range.2 (Nat.lt_succ_of_le (S.le_max' a ha))
    have hnm : n ≤ S.max' hne := by
      have hcc := Finset.card_le_card hsub
      rw [hS, Finset.card_range] at hcc
      omega
    calc ∑ i in S, w i = ∑ i in S.erase (S.max' hne), w i + w (S.max' hne) :=
          (Finset.sum_erase_add S w hmem).symm
      _ ≤ ∑ i in Finset.range n, w i + w n :=
          add_le_add (ih _ hcard) (hw n (S.max' hne) hnm)
      _ = ∑ i in Finset.range (n + 1), w i := (Finset.sum_range_succ w n).symm

theorem dcg_le_idcg (rl : List ℚ) (k : ℕ) (hk : 1 ≤ k)
    (h01 : ∀ x ∈ rl, x = 0 ∨ x = 1) (hlen : rl.length = k) :
    dcg_of rl k ≤ dcg_of (sortDescBy id rl) k := by
  rw [dcg_of_eq_sum_filter rl k hk h01 hlen, idcg_eq rl k hk h01 hlen]
  have hcard : ((Finset.range k).filter fun i => rl.getD i 0 = 1).card = rl.count 1 := by
    rw [← hlen]
    exact card_ones_filter rl
  calc ∑ i in (Finset.range k).filter (fun i => rl.getD i 0 = 1), logw i
      ≤ ∑ i in Finset.range (((Finset.range k).filter
          fun i => rl.getD i 0 = 1).card), logw i :=
        sum_antitone_card logw (fun i j h => logw_antitone h) _ _ rfl
    _ = ∑ i in Finset.range (rl.count 1), logw i := by rw [hcard]

theorem dcg_of_nonneg {rl : List ℚ} (h : ∀ x ∈ rl, 0 ≤ x) (k : ℕ) :
    0 ≤ dcg_of rl k := by
  rw [dcg_of]
  have hg : ∀ i, (0 : ℝ) ≤ (rl.getD i 0 : ℝ) := fun i => by
    exact_mod_cast getD_nonneg h i
  refine add_nonneg (hg 0) (Finset.sum_nonneg fun i _ => ?_)
  refine div_nonneg (hg (i + 1)) ?_
  have hi : (0 : ℝ) ≤ (i : ℝ) := Nat.cast_nonneg i
  have : (0 : ℝ) < Real.logb 2 ((i : ℝ) + 2) :=
    Real.logb_pos (by norm_num) (by linarith)
  linarith

theorem one_le_count_hit {yTrue yReco : List ℕ} {k : ℕ}
    (h : 0 < common_count yTrue yReco) (hlen : yReco.length ≤ k) :
    1 ≤ (hit_indicator yTrue yReco k).count 1 := by
  rw [common_count] at h
  obtain ⟨t, ht⟩ := List.exists_mem_of_length_pos h
  obtain ⟨htT, htR⟩ := List.mem_filter.1 ht
  rw [decide_eq_true_eq] at htR
  obtain ⟨⟨p, hp⟩, hget⟩ := List.mem_iff_get.1 htR
  refine List.count_pos_iff.2 ?_
  rw [hit_indicator]
  refine List.mem_map.2 ⟨p, List.mem_range.2 (lt_of_lt_of_le hp hlen), ?_⟩
  rw [List.get?_eq_get hp, hget]
  simp [htT]

theorem ndcg_one_nonneg (yTrue yReco : List ℕ) (k : ℕ) : 0 ≤ ndcg_one yTrue yReco k := by
  rw [ndcg_one]
  split
  · have h1 : ∀ x ∈ hit_indicator yTrue yReco k, (0 : ℚ) ≤ x := fun x hx => by
      rcases hit_indicator_mem hx with rfl | rfl <;> norm_num
    have h2 : ∀ x ∈ sortDescBy id (hit_indicator yTrue yReco k), (0 : ℚ) ≤ x :=
      fun x hx => h1 x ((mem_sortDescBy id x _).1 hx)
    exact div_nonneg (dcg_of_nonneg h1 k) (dcg_of_nonneg h2 k)
  · exact le_refl 0

theorem ndcg_one_le_one (yTrue yReco : List ℕ) (k : ℕ) (hk : 1 ≤ k)
    (hlen : yReco.length ≤ k) : ndcg_one yTrue yReco k ≤ 1 := by
  rw [ndcg_one]
  split
  · next hcommon =>
    have h01 : ∀ x ∈ hit_indicator yTrue yReco k, x = 0 ∨ x = 1 :=
      fun x hx => hit_indicator_mem hx
    have hlenrl : (hit_indicator yTrue yReco k).length = k :=
      hit_indicator_length yTrue yReco k
    have hcount : 1 ≤ (hit_indicator yTrue yReco k).count 1 :=
      one_le_count_hit hcommon hlen
    have hidcg : (1 : ℝ) ≤ dcg_of (sortDescBy id (hit_indicator yTrue yReco k)) k := by
      rw [idcg_eq _ k hk h01 hlenrl]
      have := Finset.single_le_sum (f := logw) (fun i _ => (logw_pos i).le)
        (Finset.mem_range.2 (by omega : 0 < (hit_indicator yTrue yReco k).count 1))
      calc (1 : ℝ) = logw 0 := by rw [logw, if_pos rfl]
        _ ≤ _ := this
    refine div_le_one_of_le₀ (dcg_le_idcg _ k hk h01 hlenrl) (by linarith)
  · norm_num

theorem precision_one_bounds (yTrue yReco : List ℕ) (k : ℕ) :
    0 ≤ precision_one yTrue yReco k ∧ precision_one yTrue yReco k ≤ 1 := by
  rw [precision_one]
  split
  · constructor
    · refine qmean_nonneg fun x hx => ?_
      rcases hit_indicator_mem hx with rfl | rfl <;> norm_num
    · refine qmean_le_one fun x hx => ?_
      rcases hit_indicator_mem hx with rfl | rfl <;> norm_num
  · norm_num

theorem recall_one_bounds (yTrue yReco : List ℕ) :
    0 ≤ recall_one yTrue yReco ∧ recall_one yTrue yReco ≤ 1 := by
  rw [recall_one]
  split
  · constructor
    · exact div_nonneg (Nat.cast_nonneg _) (Nat.cast_nonneg _)
    · refine div_le_one_of_le₀ ?_ (Nat.cast_nonneg _)
      exact_mod_cast List.length_filter_le _ _
  · norm_num

theorem average_precision_bounds (yTrue yReco : List ℕ) (k : ℕ) :
    0 ≤ average_precision_at_k yTrue yReco k ∧
      average_precision_at_k yTrue yReco k ≤ 1 := by
  rw [average_precision_at_k]
  split
  · have hpref : ∀ x ∈ (((List.range k).filter fun i =>
        decide ((hit_indicator yTrue yReco k).getD i 0 = 1))).map (fun i =>
          qmean ((hit_indicator yTrue yReco k).take (i + 1))),
        0 ≤ x ∧ x ≤ 1 := by
      intro x hx
      rcases List.mem_map.1 hx with ⟨i, _, rfl⟩
      constructor
      · refine qmean_nonneg fun y hy => ?_
        rcases hit_indicator_mem (List.mem_of_mem_take hy) with rfl | rfl <;> norm_num
      · refine qmean_le_one fun y hy => ?_
        rcases hit_indicator_mem (List.mem_of_mem_take hy) with rfl | rfl <;> norm_num
    exact ⟨qmean_nonneg fun x hx => (hpref x hx).1,
      qmean_le_one fun x hx => (hpref x hx).2⟩
  · norm_num

/-- C6: all four metrics stay inside the unit interval, for every ground-truth
assignment as soon as each user's recommendation list (assumed unique in the
source's assume_unique contract) has at most k entries, k is at least 1 and the
user list is nonempty. -/
theorem C6_theorem (yTrueList yRecoList : ℕ → List ℕ) (users : List ℕ) (k : ℕ)
    (hk : 1 ≤ k) (hu : users ≠ [])
    (hlen : ∀ u ∈ users, (yRecoList u).length ≤ k) :
    (0 ≤ precision_at_k yTrueList yRecoList users k ∧
      precision_at_k yTrueList yRecoList users k ≤ 1) ∧
    (0 ≤ recall_at_k yTrueList yRecoList users k ∧
      recall_at_k yTrueList yRecoList users k ≤ 1) ∧
    (0 ≤ map_at_k yTrueList yRecoList users k ∧
      map_at_k yTrueList yRecoList users k ≤ 1) ∧
    (0 ≤ ndcg_at_k yTrueList yRecoList users k ∧
      ndcg_at_k yTrueList yRecoList users k ≤ 1) := by
  refine ⟨⟨?_, ?_⟩, ⟨?_, ?_⟩, ⟨?_, ?_⟩, ⟨?_, ?_⟩⟩
  · refine qmean_nonneg fun x hx => ?_
    rcases List.mem_map.1 hx with ⟨u, _, rfl⟩
    exact (precision_one_bounds _ _ _).1
  · refine qmean_le_one fun x hx => ?_
    rcases List.mem_map.1 hx with ⟨u, _, rfl⟩
    exact (precision_one_bounds _ _ _).2
  · refine qmean_nonneg fun x hx => ?_
    rcases List.mem_map.1 hx with ⟨u, _, rfl⟩
    exact (recall_one_bounds _ _).1
  · refine qmean_le_one fun x hx => ?_
    rcases List.mem_map.1 hx with ⟨u, _, rfl⟩
    exact (recall_one_bounds _ _).2
  · refine qmean_nonneg fun x hx => ?_
    rcases List.mem_map.1 hx with ⟨u, _, rfl⟩
    exact (average_precision_bounds _ _ _).1
  · refine qmean_le_one fun x hx => ?_
    rcases List.mem_map.1 hx with ⟨u, _, rfl⟩
    exact (average_precision_bounds _ _ _).2
  · refine rmean_nonneg fun x hx => ?_
    rcases List.mem_map.1 hx with ⟨u, _, rfl⟩
    exact ndcg_one_nonneg _ _ _
  · refine rmean_le_one fun x hx => ?_
    rcases List.mem_map.1 hx with ⟨u, hm, rfl⟩
    exact ndcg_one_le_one _ _ _ hk (hlen u hm)

/-- C6 witness: one user, perfect single recommendation at k = 1. -/
theorem C6_witness :
    (0 ≤ precision_at_k (fun _ => [5]) (fun _ => [5]) [0] 1 ∧
      precision_at_k (fun _ => [5]) (fun _ => [5]) [0] 1 ≤ 1) ∧
    (0 ≤ recall_at_k (fun _ => [5]) (fun _ => [5]) [0] 1 ∧
      recall_at_k (fun _ => [5]) (fun _ => [5]) [0] 1 ≤ 1) ∧
    (0 ≤ map_at_k (fun _ => [5]) (fun _ => [5]) [0] 1 ∧
      map_at_k (fun _ => [5]) (fun _ => [5]) [0] 1 ≤ 1) ∧
    (0 ≤ ndcg_at_k (fun _ => [5]) (fun _ => [5]) [0] 1 ∧
      ndcg_at_k (fun _ => [5]) (fun _ => [5]) [0] 1 ≤ 1) :=
  C6_theorem (fun _ => [5]) (fun _ => [5]) [0] 1 (by decide) (by decide)
    (by intro u _; exact le_refl 1)

theorem dcg_code_example : dcg_of [1, 0, 1] 3 = 1 + (Real.logb 2 3)⁻¹ := by
  rw [dcg_of]
  rw [show (3:ℕ) - 1 = 2 from rfl, Finset.sum_range_succ, Finset.sum_range_succ,
    Finset.sum_range_zero]
  norm_num

theorem dcg_ideal_example : dcg_of [1, 1, 0] 3 = 2 := by
  rw [dcg_of]
  rw [show (3:ℕ) - 1 = 2 from rfl, Finset.sum_range_succ, Finset.sum_range_succ,
    Finset.sum_range_zero]
  norm_num [Real.logb_self_eq_one]

theorem logb24 : Real.logb 2 4 = 2 := by
  rw [show (4:ℝ) = 2 ^ (2:ℕ) by norm_num, Real.logb_pow,
    Real.logb_self_eq_one (by norm_num)]
  norm_num

theorem dcg_spec_hit_example : dcg_specFormula [1, 0, 1] 3 = 3 / 2 := by
  rw [dcg_specFormula]
  rw [show (3:ℕ) - 1 = 2 from rfl, Finset.sum_range_succ, Finset.sum_range_succ,
    Finset.sum_range_zero]
  norm_num [logb24]

theorem dcg_spec_ideal_example :
    dcg_specFormula [1, 1, 0] 3 = 1 + (Real.logb 2 3)⁻¹ := by
  rw [dcg_specFormula]
  rw [show (3:ℕ) - 1 = 2 from rfl, Finset.sum_range_succ, Finset.sum_range_succ,
    Finset.sum_range_zero]
  norm_num

theorem logb23_gt : (3:ℝ)/2 < Real.logb 2 3 := by
  rw [Real.lt_logb_iff_rpow_lt (by norm_num) (by norm_num)]
  have ha : (0:ℝ) ≤ (2:ℝ) ^ ((3:ℝ)/2) := Real.rpow_nonneg (by norm_num) _
  have h8 : ((2:ℝ) ^ ((3:ℝ)/2)) ^ (2:ℕ) = 8 := by
    rw [← Real.rpow_natCast ((2:ℝ) ^ ((3:ℝ)/2)) 2,
      ← Real.rpow_mul (by norm_num : (0:ℝ) ≤ 2)]
    norm_num
  refine lt_of_pow_lt_pow_left₀ 2 (by norm_num) ?_
  rw [h8]
  norm_num

theorem example_values_ne :
    (1 + (Real.logb 2 3)⁻¹) / 2 ≠ 3 / 2 / (1 + (Real.logb 2 3)⁻¹) := by
  have hpos : (0:ℝ) < Real.logb 2 3 := Real.logb_pos (by norm_num) (by norm_num)
  have hgt := logb23_gt
  have hx0 : (0:ℝ) < (Real.logb 2 3)⁻¹ := inv_pos.2 hpos
  have hx : (Real.logb 2 3)⁻¹ < 2/3 := by
    have h23 : ((3:ℝ)/2)⁻¹ = 2/3 := by norm_num
    calc (Real.logb 2 3)⁻¹ < ((3:ℝ)/2)⁻¹ := inv_strictAnti₀ (by norm_num) hgt
      _ = 2/3 := h23
  set x := (Real.logb 2 3)⁻¹ with hxdef
  have h1 : (1 + x)/2 < 5/6 := by linarith
  have h2 : (9:ℝ)/10 < 3/2/(1+x) := by
    rw [lt_div_iff₀ (by linarith : (0:ℝ) < 1 + x)]
    linarith
  intro heq
  rw [heq] at h1
  linarith

theorem hit_indicator_example : hit_indicator [3, 7] [7, 1, 3] 3 = [1, 0, 1] := by
  decide

theorem sort_indicator_example : sortDescBy id [(1:ℚ), 0, 1] = [1, 1, 0] := by
  decide

theorem ndcg_code_example :
    ndcg_at_k (fun _ => [3, 7]) (fun _ => [7, 1, 3]) [0] 3 =
      (1 + (Real.logb 2 3)⁻¹) / 2 := by
  rw [ndcg_at_k, List.map_cons, List.map_nil, rmean, List.sum_cons, List.sum_nil,
    add_zero, List.length_singleton]
  rw [ndcg_one, if_pos (by decide : 0 < common_count [3, 7] [7, 1, 3]),
    hit_indicator_example, sort_indicator_example, dcg_code_example,
    dcg_ideal_example]
  norm_num

theorem ndcg_spec_example :
    ndcg_at_k_specFormula (fun _ => [3, 7]) (fun _ => [7, 1, 3]) [0] 3 =
      3 / 2 / (1 + (Real.logb 2 3)⁻¹) := by
  rw [ndcg_at_k_specFormula, List.map_cons, List.map_nil, rmean, List.sum_cons,
    List.sum_nil, add_zero, List.length_singleton]
  rw [ndcg_one_specFormula, if_pos (by decide : 0 < common_count [3, 7] [7, 1, 3]),
    hit_indicator_example, sort_indicator_example, dcg_spec_hit_example,
    dcg_spec_ideal_example]
  norm_num

/-- C1: the claim asserts the spec's discount rel[i] / log2(i+2) and the value
NDCG of about 0.9197 on the example.  The code's ndcg_at_k discounts by
log2(i+1) instead: on the spec's own example it evaluates to
(1 + 1/log2 3)/2 (about 0.8155), which differs from the value
1.5 / (1 + 1/log2 3) produced by the spec's formula, refuting the claim. -/
theorem C1_counterexample :
    ndcg_at_k_specFormula (fun _ => [3, 7]) (fun _ => [7, 1, 3]) [0] 3 =
      3 / 2 / (1 + (Real.logb 2 3)⁻¹) ∧
    ndcg_at_k (fun _ => [3, 7]) (fun _ => [7, 1, 3]) [0] 3 ≠
      ndcg_at_k_specFormula (fun _ => [3, 7]) (fun _ => [7, 1, 3]) [0] 3 := by
  refine ⟨ndcg_spec_example, ?_⟩
  rw [ndcg_code_example, ndcg_spec_example]
  exact example_values_ne

/-- C1 amended: ndcg_at_k discounts the indicator entry at position i by
log2(i+1) for i = 1..k-1 (np.arange(2, k+1)), so positions 0 and 1 are both
undiscounted; on the example y_true = [3,7], y_reco = [7,1,3], k = 3 the value
is (1 + 1/log2 3)/2, about 0.8155, not 0.9197. -/
theorem C1_amended :
    ndcg_at_k (fun _ => [3, 7]) (fun _ => [7, 1, 3]) [0] 3 =
      (1 + (Real.logb 2 3)⁻¹) / 2 :=
  ndcg_code_example

end LibRec
